import Mathlib

/-!
Verification of the dropbox_downloader repository (src/dropbox_downloader.py).

The development shallowly embeds the two components of the program:

* `DropboxContentHasher` — the streaming two-level block hash.  A SHA-256
  hasher object from `hashlib` is fully determined by the byte stream fed to
  it, so each hashlib hasher is modelled by the list of bytes it has consumed,
  and the 32-byte digest function of SHA-256 is an arbitrary parameter
  `sha : Bytes → Bytes` that all operations take as an argument.  The fields
  of the Lean structure correspond one-to-one to the Python attributes
  `_overall_hasher`, `_block_hasher` and `_block_pos`; a hashlib object that
  has been set to `None` is modelled by `Option.none`.

* The sync engine — `check_file_hash`, `fetch_entries`, `download_entries`.
  The local filesystem is a map from file names (relative to `save_dir`) to
  optional byte contents; the remote service is modelled by the data it
  returns: the listing as the list of pages, and the download/refresh calls
  as oracles indexed by entry index and attempt number.
-/

namespace DropboxDownloader

/-- Byte strings (`bytes` values in Python) are modelled as lists of naturals. -/
abbrev Bytes := List Nat

/-- One lowercase hexadecimal digit, as produced by `hexdigest`. -/
def hexDigitChar (n : Nat) : Char :=
  if n < 10 then Char.ofNat (48 + n) else Char.ofNat (87 + n)

/-- Two lowercase hex digits for one byte, as in `hashlib`'s `hexdigest`. -/
def hexOfByte (b : Nat) : String :=
  String.mk [hexDigitChar (b / 16 % 16), hexDigitChar (b % 16)]

/-- Lowercase hex encoding of a byte string (`hashlib`'s `hexdigest`). -/
def hexOfBytes (bs : Bytes) : String :=
  String.join (bs.map hexOfByte)

/-- A Python value passed to `DropboxContentHasher.update`.  Only `bytes`
values (constructor `bytes`) satisfy `isinstance(new_data, six.binary_type)`;
the other constructors stand for the non-binary values the assert rejects. -/
inductive PyInput where
  | bytes (data : Bytes)
  | text (s : String)
  | pyInt (n : Int)
  | pyNone
deriving DecidableEq

/-- Whether a `PyInput` is a `bytes` value (`isinstance(x, six.binary_type)`). -/
def PyInput.isBytes : PyInput → Bool
  | PyInput.bytes _ => true
  | _ => false

/-- The errors the hasher methods can raise.  `alreadyFinalized` is the
`AssertionError` raised by `update`/`_finish` on a consumed hasher,
`expectingByteString` the `AssertionError` raised by the `isinstance` assert
in `update`, and `attributeError` the `AttributeError` Python would raise on
a method call on a field that has been set to `None` (never reachable through
the public interface). -/
inductive HasherError where
  | alreadyFinalized
  | expectingByteString
  | attributeError
deriving DecidableEq

/-- State of a `DropboxContentHasher` instance.  Each `hashlib.sha256` object
is represented by the byte stream fed to it so far; a field holding Python
`None` is `Option.none`. -/
structure DropboxContentHasher where
  overall_hasher : Option Bytes
  block_hasher : Option Bytes
  block_pos : Nat
deriving DecidableEq

namespace DropboxContentHasher

/-- `BLOCK_SIZE = 4 * 1024 * 1024`. -/
def BLOCK_SIZE : Nat := 4 * 1024 * 1024

/-- `__init__`: two fresh SHA-256 accumulators and block position 0. -/
def init : DropboxContentHasher :=
  ⟨some [], some [], 0⟩

/-- The `while new_data_pos < len(new_data)` loop of `update`, lines 57–69.
The remaining slice `new_data[new_data_pos:]` is passed explicitly, and the
iteration count is bounded by a fuel argument (`update` passes the length of
the data, which suffices: whenever `block_pos ≤ BLOCK_SIZE` every iteration
consumes at least one byte, and the class invariant keeps
`block_pos ≤ BLOCK_SIZE`). -/
def updateLoop (sha : Bytes → Bytes) :
    Nat → Bytes → Bytes → Nat → Bytes → Bytes × Bytes × Nat
  | _, overall, block, pos, [] => (overall, block, pos)
  | 0, overall, block, pos, _ :: _ => (overall, block, pos)
  | fuel + 1, overall, block, pos, d@(_ :: _) =>
    let st := if pos = BLOCK_SIZE then (overall ++ sha block, ([] : Bytes), 0)
              else (overall, block, pos)
    let space := BLOCK_SIZE - st.2.2
    let part := d.take space
    updateLoop sha fuel st.1 (st.2.1 ++ part) (st.2.2 + part.length) (d.drop space)

/-- `update` (lines 47–69): reject a consumed hasher, reject non-`bytes`
input, then run the block-filling loop. -/
def update (sha : Bytes → Bytes) (h : DropboxContentHasher) (new_data : PyInput) :
    Except HasherError DropboxContentHasher :=
  match h.overall_hasher with
  | none => Except.error HasherError.alreadyFinalized
  | some overall =>
    match new_data with
    | PyInput.bytes d =>
      match h.block_hasher with
      | none => Except.error HasherError.attributeError
      | some block =>
        let st := updateLoop sha d.length overall block h.block_pos d
        Except.ok ⟨some st.1, some st.2.1, st.2.2⟩
    | _ => Except.error HasherError.expectingByteString

/-- `_finish` (lines 71–82): fold the last partial block if nonempty, return
the overall accumulator's input stream, and consume the instance
(`_overall_hasher = None`, and `_block_hasher = None` when the fold ran). -/
def _finish (sha : Bytes → Bytes) (h : DropboxContentHasher) :
    Except HasherError (Bytes × DropboxContentHasher) :=
  match h.overall_hasher with
  | none => Except.error HasherError.alreadyFinalized
  | some overall =>
    if h.block_pos > 0 then
      match h.block_hasher with
      | none => Except.error HasherError.attributeError
      | some block =>
        Except.ok (overall ++ sha block, ⟨none, none, h.block_pos⟩)
    else
      Except.ok (overall, ⟨none, h.block_hasher, h.block_pos⟩)

/-- `digest`: the raw 32-byte digest of the overall accumulator. -/
def digest (sha : Bytes → Bytes) (h : DropboxContentHasher) :
    Except HasherError (Bytes × DropboxContentHasher) :=
  (_finish sha h).map fun r => (sha r.1, r.2)

/-- `hexdigest`: the lowercase-hex digest of the overall accumulator. -/
def hexdigest (sha : Bytes → Bytes) (h : DropboxContentHasher) :
    Except HasherError (String × DropboxContentHasher) :=
  (_finish sha h).map fun r => (hexOfBytes (sha r.1), r.2)

/-- `copy` (lines 90–95): duplicate both accumulators and the position
counter.  On a finalized instance Python would raise `AttributeError`
(`None.copy()`). -/
def copy (h : DropboxContentHasher) : Except HasherError DropboxContentHasher :=
  match h.overall_hasher with
  | none => Except.error HasherError.attributeError
  | some o =>
    match h.block_hasher with
    | none => Except.error HasherError.attributeError
    | some b => Except.ok ⟨some o, some b, h.block_pos⟩

end DropboxContentHasher

/-- Feeding a list of byte chunks to a hasher by repeated `update` calls. -/
def runUpdates (sha : Bytes → Bytes) (h : DropboxContentHasher)
    (chunks : List Bytes) : Except HasherError DropboxContentHasher :=
  chunks.foldlM (fun acc c => DropboxContentHasher.update sha acc (PyInput.bytes c)) h

/-- Splitting a byte string into consecutive chunks of size `k` (the
successive results of `f.read(k)` in `check_file_hash`), with an explicit
fuel bound on the number of chunks (the length of the input suffices for any
`k ≥ 1`). -/
def chunksOfAux (k : Nat) : Nat → Bytes → List Bytes
  | _, [] => []
  | 0, _ :: _ => []
  | fuel + 1, l@(_ :: _) => l.take k :: chunksOfAux k fuel (l.drop k)

/-- All consecutive `k`-sized chunks of a byte string. -/
def chunksOf (k : Nat) (l : Bytes) : List Bytes :=
  chunksOfAux k l.length l

/-- A local file's contents indexed by name (the path `save_dir / name`);
`none` means no file exists there. -/
abbrev FS := String → Option Bytes

/-- `check_file_hash` (lines 120–128), applied to the contents of the local
file: feed the file to a fresh hasher in `BLOCK_SIZE` reads and compare the
hex digest with the expected `content_hash` string. -/
def check_file_hash (sha : Bytes → Bytes) (content : Bytes)
    (expected_hash : String) : Bool :=
  match (runUpdates sha DropboxContentHasher.init
      (chunksOf DropboxContentHasher.BLOCK_SIZE content)).bind
      (fun h => DropboxContentHasher.hexdigest sha h) with
  | Except.ok r => r.1 == expected_hash
  | Except.error _ => false

/-- File metadata of a remote entry (`dropbox.files.FileMetadata`): the
fields `fetch_entries` and `download_entries` use. -/
structure FileMetadata where
  name : String
  size : Nat
  content_hash : String
deriving DecidableEq

/-- One entry of a listing page.  `fileEntry` is `dropbox.files.FileMetadata`,
`folderEntry` is `dropbox.files.FolderMetadata`, and `otherEntry` stands for
any other metadata type (the `else` branch of `fetch_entries`). -/
inductive RemoteEntry where
  | fileEntry (f : FileMetadata)
  | folderEntry (name : String)
  | otherEntry
deriving DecidableEq

/-- The `FileMetadata` of a file entry, `none` otherwise. -/
def entryFile : RemoteEntry → Option FileMetadata
  | RemoteEntry.fileEntry f => some f
  | _ => none

/-- Whether an entry is a `FileMetadata`. -/
def RemoteEntry.isFileEntry : RemoteEntry → Bool
  | RemoteEntry.fileEntry _ => true
  | _ => false

/-- Whether an entry is a `FolderMetadata`. -/
def RemoteEntry.isFolderEntry : RemoteEntry → Bool
  | RemoteEntry.folderEntry _ => true
  | _ => false

/-- Whether an entry is of an unknown metadata type. -/
def RemoteEntry.isOtherEntry : RemoteEntry → Bool
  | RemoteEntry.otherEntry => true
  | _ => false

/-- Errors of the listing phase: `notImplementedError` is the
`NotImplementedError` raised on a folder entry, `valueError` the `ValueError`
raised on an unknown entry type. -/
inductive FetchError where
  | notImplementedError
  | valueError
deriving DecidableEq

/-- The `for entry in entries` body of `fetch_entries` (lines 139–156) over
one page, threading the accumulated `entries_to_download`. -/
def fetchPage (sha : Bytes → Bytes) (fs : FS) :
    List RemoteEntry → List FileMetadata → Except FetchError (List FileMetadata)
  | [], acc => Except.ok acc
  | e :: rest, acc =>
    match e with
    | RemoteEntry.fileEntry f =>
      match fs f.name with
      | some content =>
        if content.length = f.size then
          if check_file_hash sha content f.content_hash then
            fetchPage sha fs rest acc
          else
            fetchPage sha fs rest (acc ++ [f])
        else
          fetchPage sha fs rest (acc ++ [f])
      | none => fetchPage sha fs rest (acc ++ [f])
    | RemoteEntry.folderEntry _ => Except.error FetchError.notImplementedError
    | RemoteEntry.otherEntry => Except.error FetchError.valueError

/-- The pagination loop of `fetch_entries` (lines 135–160): the remote
service's successive `files_list_folder` / `files_list_folder_continue`
results are modelled by the list of pages they return in order. -/
def fetchPages (sha : Bytes → Bytes) (fs : FS) :
    List (List RemoteEntry) → List FileMetadata → Except FetchError (List FileMetadata)
  | [], acc => Except.ok acc
  | p :: ps, acc =>
    match fetchPage sha fs p acc with
    | Except.ok acc' => fetchPages sha fs ps acc'
    | Except.error err => Except.error err

/-- `fetch_entries` (lines 131–165): the computed download plan, or the
listing-phase error. -/
def fetch_entries (sha : Bytes → Bytes) (fs : FS)
    (pages : List (List RemoteEntry)) : Except FetchError (List FileMetadata) :=
  fetchPages sha fs pages []

/-- Whether, for a remote file entry, a matching local file exists: the
skip condition of `fetch_entries` (lines 142–145). -/
def locallySatisfied (sha : Bytes → Bytes) (fs : FS) (f : FileMetadata) : Bool :=
  match fs f.name with
  | none => false
  | some content =>
    (content.length == f.size) && check_file_hash sha content f.content_hash

/-- Outcome of one `sharing_get_shared_link_file_to_file` call:
a raised transport error, or the byte contents written to the local path. -/
inductive FetchOutcome where
  | transportError
  | fetched (content : Bytes)
deriving DecidableEq

/-- The environment of the download phase.  The remote service's behaviour is
an oracle indexed by the entry index and the attempt number: `fetchOutcome`
is the result of the download call, `refreshOk` the boolean returned by
`check_and_refresh_access_token`. -/
structure DlEnv where
  sha : Bytes → Bytes
  fetchOutcome : Nat → Nat → FetchOutcome
  refreshOk : Nat → Nat → Bool

/-- Observable events of the download phase.  `fetchAttempt i r` is the
start of attempt `r` for entry `i`, `refreshInvoked i r b` a call to
`check_and_refresh_access_token` that returned `b`, `failedSkipping i` the
`Failed to download ... Skipping...` report after the last attempt, and
`downloadCompleted` the final `Download completed` report. -/
inductive Event where
  | fetchAttempt (i r : Nat)
  | refreshInvoked (i r : Nat) (refreshed : Bool)
  | failedSkipping (i : Nat)
  | downloadCompleted
deriving DecidableEq

/-- The `for retry_i in range(retry)` loop of `download_entries`
(lines 178–198) for the entry at index `i`, with `k` iterations remaining
and `r` the current `retry_i`.  A successful transport fetch writes the
content at `entry.name`; a hash mismatch unlinks it; any caught failure with
attempts remaining calls `check_and_refresh_access_token` before retrying,
and the last attempt reports and gives up. -/
def downloadLoop (env : DlEnv) (entry : FileMetadata) (i : Nat) (retry : Int) :
    Nat → Nat → FS → FS × List Event
  | 0, _, fs => (fs, [])
  | k + 1, r, fs =>
    match env.fetchOutcome i r with
    | FetchOutcome.transportError =>
      if (r : Int) < retry - 1 then
        let b := env.refreshOk i r
        let res := downloadLoop env entry i retry k (r + 1) fs
        (res.1, Event.fetchAttempt i r :: Event.refreshInvoked i r b :: res.2)
      else
        (fs, [Event.fetchAttempt i r, Event.failedSkipping i])
    | FetchOutcome.fetched content =>
      let fs1 : FS := fun n => if n = entry.name then some content else fs n
      if check_file_hash env.sha content entry.content_hash then
        (fs1, [Event.fetchAttempt i r])
      else
        let fs2 : FS := fun n => if n = entry.name then none else fs1 n
        if (r : Int) < retry - 1 then
          let b := env.refreshOk i r
          let res := downloadLoop env entry i retry k (r + 1) fs2
          (res.1, Event.fetchAttempt i r :: Event.refreshInvoked i r b :: res.2)
        else
          (fs2, [Event.fetchAttempt i r, Event.failedSkipping i])

/-- The `for idx, entry in enumerate(entries)` loop of `download_entries`,
starting at index `i0`.  `range(retry)` performs `retry.toNat` iterations
(none when `retry ≤ 0`, as in Python). -/
def downloadAll (env : DlEnv) (retry : Int) :
    List FileMetadata → Nat → FS → FS × List Event
  | [], _, fs => (fs, [])
  | e :: rest, i0, fs =>
    let r1 := downloadLoop env e i0 retry retry.toNat 0 fs
    let r2 := downloadAll env retry rest (i0 + 1) r1.1
    (r2.1, r1.2 ++ r2.2)

/-- `download_entries` (lines 168–199): process the plan in order and report
completion. -/
def download_entries (env : DlEnv) (entries : List FileMetadata)
    (retry : Int) (fs : FS) : FS × List Event :=
  let r := downloadAll env retry entries 0 fs
  (r.1, r.2 ++ [Event.downloadCompleted])

/-- Whether attempt `a` for entry `i` fails (either a transport error, or a
fetched file whose hash verification fails). -/
def attemptFailsB (env : DlEnv) (f : FileMetadata) (i a : Nat) : Bool :=
  match env.fetchOutcome i a with
  | FetchOutcome.transportError => true
  | FetchOutcome.fetched content => !check_file_hash env.sha content f.content_hash

/-- Whether attempt `a` for entry `i` succeeds at transport level but fails
hash verification. -/
def attemptHashFails (env : DlEnv) (f : FileMetadata) (i a : Nat) : Bool :=
  match env.fetchOutcome i a with
  | FetchOutcome.transportError => false
  | FetchOutcome.fetched content => !check_file_hash env.sha content f.content_hash

/-- Modelled from the spec: the two-level content hash of a byte string with
block boundaries aligned exactly to `BLOCK_SIZE` multiples — the overall
SHA-256 of the concatenated SHA-256 digests of the consecutive 4 MiB blocks.
This is the reference definition the finalized digest is compared against in
the refinement claim about exact-multiple inputs. -/
def specAlignedContentHash (sha : Bytes → Bytes) (data : Bytes) : Bytes :=
  sha (((chunksOf DropboxContentHasher.BLOCK_SIZE data).map sha).flatten)

open DropboxContentHasher

/-- Reference semantics of the block loop, one byte at a time: fold the
completed block when the position has reached `BLOCK_SIZE`, then append the
byte to the current block. -/
def hashStep (sha : Bytes → Bytes) (st : Bytes × Bytes × Nat) (b : Nat) :
    Bytes × Bytes × Nat :=
  if st.2.2 = BLOCK_SIZE then (st.1 ++ sha st.2.1, [b], 1)
  else (st.1, st.2.1 ++ [b], st.2.2 + 1)

/-- Feeding a byte string one byte at a time. -/
def feed (sha : Bytes → Bytes) (st : Bytes × Bytes × Nat) (d : Bytes) :
    Bytes × Bytes × Nat :=
  d.foldl (hashStep sha) st

/-- An active hasher state, as a Lean structure. -/
def mkActive (st : Bytes × Bytes × Nat) : DropboxContentHasher :=
  ⟨some st.1, some st.2.1, st.2.2⟩

theorem feed_cons (sha : Bytes → Bytes) (st : Bytes × Bytes × Nat) (b : Nat)
    (d : Bytes) : feed sha st (b :: d) = feed sha (hashStep sha st b) d := rfl

theorem feed_append (sha : Bytes → Bytes) (st : Bytes × Bytes × Nat)
    (d₁ d₂ : Bytes) : feed sha st (d₁ ++ d₂) = feed sha (feed sha st d₁) d₂ := by
  simp [feed]

theorem block_size_pos : 0 < BLOCK_SIZE := by decide

/-- A byte string that still fits in the current block is appended whole,
with no fold. -/
theorem feed_no_fold (sha : Bytes → Bytes) :
    ∀ (d : Bytes) (o b : Bytes) (p : Nat), p + d.length ≤ BLOCK_SIZE →
      feed sha (o, b, p) d = (o, b ++ d, p + d.length) := by
  intro d
  induction d with
  | nil => intro o b p _; simp [feed]
  | cons x xs ih =>
    intro o b p hle
    have hp : ¬ (p = BLOCK_SIZE) := by simp only [List.length_cons] at hle; omega
    rw [feed_cons]
    show feed sha (hashStep sha (o, b, p) x) xs = _
    simp only [hashStep, if_neg hp]
    rw [ih]
    · have harith : p + 1 + xs.length = p + (x :: xs).length := by
        simp only [List.length_cons]; omega
      simp only [List.append_assoc, List.singleton_append, harith]
    · simp only [List.length_cons] at hle ⊢; omega

/-- The block position never exceeds `BLOCK_SIZE`. -/
theorem feed_pos_le (sha : Bytes → Bytes) :
    ∀ (d : Bytes) (st : Bytes × Bytes × Nat), st.2.2 ≤ BLOCK_SIZE →
      (feed sha st d).2.2 ≤ BLOCK_SIZE := by
  intro d
  induction d with
  | nil => intro st h; simpa [feed] using h
  | cons x xs ih =>
    intro st h
    rw [feed_cons]
    apply ih
    simp only [hashStep]
    split
    · exact block_size_pos
    · rename_i hne
      simp only []
      omega

/-- Starting a fresh byte string at a full block first folds the block. -/
theorem feed_full_start (sha : Bytes → Bytes) (o b : Bytes) (d : Bytes)
    (hd : d ≠ []) :
    feed sha (o, b, BLOCK_SIZE) d = feed sha (o ++ sha b, [], 0) d := by
  cases d with
  | nil => exact absurd rfl hd
  | cons x xs =>
    rw [feed_cons, feed_cons]
    have h0 : ¬ ((0 : Nat) = BLOCK_SIZE) := by decide
    simp [hashStep, h0]

/-- One unfolding of the `while` body on a nonempty remainder. -/
theorem updateLoop_step (sha : Bytes → Bytes) (fuel : Nat) (o b : Bytes)
    (p : Nat) (x : Nat) (xs : Bytes) :
    updateLoop sha (fuel + 1) o b p (x :: xs) =
      if p = BLOCK_SIZE then
        updateLoop sha fuel (o ++ sha b) ((x :: xs).take BLOCK_SIZE)
          ((x :: xs).take BLOCK_SIZE).length ((x :: xs).drop BLOCK_SIZE)
      else
        updateLoop sha fuel o (b ++ (x :: xs).take (BLOCK_SIZE - p))
          (p + ((x :: xs).take (BLOCK_SIZE - p)).length)
          ((x :: xs).drop (BLOCK_SIZE - p)) := by
  by_cases hpos : p = BLOCK_SIZE
  · subst hpos; simp [updateLoop]
  · simp [updateLoop, hpos]

/-- The chunked `while` loop of `update` agrees with the one-byte reference
semantics whenever the block position respects the class invariant and the
fuel covers the data length. -/
theorem updateLoop_eq_feed (sha : Bytes → Bytes) :
    ∀ (fuel : Nat) (d o b : Bytes) (p : Nat), p ≤ BLOCK_SIZE →
      d.length ≤ fuel →
      updateLoop sha fuel o b p d = feed sha (o, b, p) d := by
  intro fuel
  induction fuel with
  | zero =>
    intro d o b p hp hd
    have hnil : d = [] := List.length_eq_zero.mp (Nat.le_zero.mp hd)
    subst hnil
    simp [updateLoop, feed]
  | succ fuel ih =>
    intro d o b p hp hd
    match d with
    | [] => simp [updateLoop, feed]
    | x :: xs =>
      rw [updateLoop_step]
      by_cases hpos : p = BLOCK_SIZE
      · subst hpos
        rw [if_pos rfl]
        rw [ih]
        · rw [feed_full_start sha o b (x :: xs) (by simp)]
          conv_rhs => rw [← List.take_append_drop BLOCK_SIZE (x :: xs)]
          rw [feed_append]
          rw [feed_no_fold sha ((x :: xs).take BLOCK_SIZE) (o ++ sha b) [] 0
            (by simp only [Nat.zero_add, List.length_take]; omega)]
          simp
        · simp only [List.length_take]; omega
        · have hBS := block_size_pos
          simp only [List.length_drop, List.length_cons] at *
          omega
      · have hlt : p < BLOCK_SIZE := Nat.lt_of_le_of_ne hp hpos
        rw [if_neg hpos]
        rw [ih]
        · conv_rhs => rw [← List.take_append_drop (BLOCK_SIZE - p) (x :: xs)]
          rw [feed_append]
          rw [feed_no_fold sha ((x :: xs).take (BLOCK_SIZE - p)) o b p
            (by simp only [List.length_take]; omega)]
        · simp only [List.length_take]; omega
        · simp only [List.length_drop, List.length_cons] at *
          omega

theorem update_mkActive (sha : Bytes → Bytes) (st : Bytes × Bytes × Nat)
    (d : Bytes) (hp : st.2.2 ≤ BLOCK_SIZE) :
    update sha (mkActive st) (PyInput.bytes d) =
      Except.ok (mkActive (feed sha st d)) := by
  obtain ⟨o, b, p⟩ := st
  simp only [update, mkActive]
  rw [updateLoop_eq_feed sha d.length d o b p hp (Nat.le_refl _)]

theorem runUpdates_mkActive (sha : Bytes → Bytes) :
    ∀ (chunks : List Bytes) (st : Bytes × Bytes × Nat),
      st.2.2 ≤ BLOCK_SIZE →
      runUpdates sha (mkActive st) chunks =
        Except.ok (mkActive (feed sha st chunks.flatten)) := by
  intro chunks
  induction chunks with
  | nil => intro st h; rfl
  | cons c cs ih =>
    intro st h
    simp only [runUpdates, List.foldlM_cons]
    rw [update_mkActive sha st c h]
    show runUpdates sha (mkActive (feed sha st c)) cs = _
    rw [ih (feed sha st c) (feed_pos_le sha c st h), List.flatten_cons,
      feed_append]

/-- C1: for every byte sequence and every way of splitting it into chunks,
feeding the chunks in order to a fresh `DropboxContentHasher` via repeated
`update` calls and then finalizing yields the same digest regardless of the
chunk boundaries. -/
theorem claim_C1_chunking_invariance (sha : Bytes → Bytes)
    (c1 c2 : List Bytes) (hjoin : c1.flatten = c2.flatten) :
    (runUpdates sha init c1).bind (digest sha) =
      (runUpdates sha init c2).bind (digest sha) := by
  have h1 : runUpdates sha init c1 =
      Except.ok (mkActive (feed sha ([], [], 0) c1.flatten)) :=
    runUpdates_mkActive sha c1 ([], [], 0) (Nat.zero_le _)
  have h2 : runUpdates sha init c2 =
      Except.ok (mkActive (feed sha ([], [], 0) c2.flatten)) :=
    runUpdates_mkActive sha c2 ([], [], 0) (Nat.zero_le _)
  rw [h1, h2, hjoin]

/-- Witness for C1 at a concrete chunking of `[1, 2, 3]`. -/
theorem claim_C1_chunking_invariance_witness :
    ([[1], [2, 3]] : List Bytes).flatten = ([[1, 2], [3]] : List Bytes).flatten ∧
    (runUpdates (fun _ => ([] : Bytes)) init [[1], [2, 3]]).bind
        (digest (fun _ => ([] : Bytes))) =
      (runUpdates (fun _ => ([] : Bytes)) init [[1, 2], [3]]).bind
        (digest (fun _ => ([] : Bytes))) :=
  ⟨rfl, claim_C1_chunking_invariance (fun _ => ([] : Bytes)) [[1], [2, 3]]
    [[1, 2], [3]] rfl⟩

/-- C4: `update` on an active hasher rejects every non-`bytes` value with the
type-mismatch error, advancing nothing. -/
theorem claim_C4_update_rejects_non_bytes (sha : Bytes → Bytes)
    (h : DropboxContentHasher) (v : PyInput)
    (hactive : h.overall_hasher.isSome = true)
    (hv : v.isBytes = false) :
    update sha h v = Except.error HasherError.expectingByteString := by
  obtain ⟨o, ho⟩ := Option.isSome_iff_exists.mp hactive
  cases v with
  | bytes d => simp [PyInput.isBytes] at hv
  | text s => simp [update, ho]
  | pyInt n => simp [update, ho]
  | pyNone => simp [update, ho]

/-- Witness for C4: a fresh hasher rejects the text value `"hello"`. -/
theorem claim_C4_update_rejects_non_bytes_witness :
    (init.overall_hasher.isSome = true) ∧
    (PyInput.text "hello").isBytes = false ∧
    update (fun _ => ([] : Bytes)) init (PyInput.text "hello") =
      Except.error HasherError.expectingByteString :=
  ⟨rfl, rfl, claim_C4_update_rejects_non_bytes (fun _ => ([] : Bytes)) init
    (PyInput.text "hello") rfl rfl⟩

/-- A successful `_finish` leaves the instance with `_overall_hasher = None`. -/
theorem finish_consumes (sha : Bytes → Bytes) (h : DropboxContentHasher)
    (s : Bytes) (h' : DropboxContentHasher)
    (hfin : _finish sha h = Except.ok (s, h')) :
    h'.overall_hasher = none := by
  obtain ⟨oh, bh, bp⟩ := h
  cases oh with
  | none => simp [_finish] at hfin
  | some o =>
    by_cases hp : bp > 0
    · cases bh with
      | none => simp [_finish, hp] at hfin
      | some b =>
        simp [_finish, hp] at hfin
        rw [← hfin.2]
    · simp [_finish, hp] at hfin
      rw [← hfin.2]

/-- On an instance whose `_overall_hasher` is `None`, all three operations
fail with the consumed-instance assertion error. -/
theorem ops_error_of_finalized (sha : Bytes → Bytes)
    (h' : DropboxContentHasher) (hnone : h'.overall_hasher = none) :
    (∀ v, update sha h' v = Except.error HasherError.alreadyFinalized) ∧
    digest sha h' = Except.error HasherError.alreadyFinalized ∧
    hexdigest sha h' = Except.error HasherError.alreadyFinalized := by
  refine ⟨fun v => ?_, ?_, ?_⟩ <;>
    simp [update, digest, hexdigest, _finish, hnone, Except.map]

/-- A successful `digest` is a successful `_finish` returning the same
consumed instance. -/
theorem digest_ok_finish (sha : Bytes → Bytes) (h : DropboxContentHasher)
    (dg : Bytes) (h' : DropboxContentHasher)
    (hd : digest sha h = Except.ok (dg, h')) :
    ∃ s, _finish sha h = Except.ok (s, h') := by
  unfold digest at hd
  cases hf : _finish sha h with
  | error e => rw [hf] at hd; simp [Except.map] at hd
  | ok r =>
    rw [hf] at hd
    simp [Except.map] at hd
    exact ⟨r.1, by rw [← hd.2]⟩

/-- A successful `hexdigest` is a successful `_finish` returning the same
consumed instance. -/
theorem hexdigest_ok_finish (sha : Bytes → Bytes) (h : DropboxContentHasher)
    (s : String) (h' : DropboxContentHasher)
    (hd : hexdigest sha h = Except.ok (s, h')) :
    ∃ t, _finish sha h = Except.ok (t, h') := by
  unfold hexdigest at hd
  cases hf : _finish sha h with
  | error e => rw [hf] at hd; simp [Except.map] at hd
  | ok r =>
    rw [hf] at hd
    simp [Except.map] at hd
    exact ⟨r.1, by rw [← hd.2]⟩

/-- C6: after `digest` or `hexdigest` has succeeded once, every subsequent
`update`, `digest` or `hexdigest` call on the returned instance fails with
the invalid-state (consumed-instance) error. -/
theorem claim_C6_finalize_is_one_time (sha : Bytes → Bytes)
    (h : DropboxContentHasher) :
    (∀ dg h', digest sha h = Except.ok (dg, h') →
      (∀ v, update sha h' v = Except.error HasherError.alreadyFinalized) ∧
      digest sha h' = Except.error HasherError.alreadyFinalized ∧
      hexdigest sha h' = Except.error HasherError.alreadyFinalized) ∧
    (∀ s h', hexdigest sha h = Except.ok (s, h') →
      (∀ v, update sha h' v = Except.error HasherError.alreadyFinalized) ∧
      digest sha h' = Except.error HasherError.alreadyFinalized ∧
      hexdigest sha h' = Except.error HasherError.alreadyFinalized) := by
  constructor
  · intro dg h' hd
    obtain ⟨s, hfin⟩ := digest_ok_finish sha h dg h' hd
    exact ops_error_of_finalized sha h' (finish_consumes sha h s h' hfin)
  · intro s h' hd
    obtain ⟨t, hfin⟩ := hexdigest_ok_finish sha h s h' hd
    exact ops_error_of_finalized sha h' (finish_consumes sha h t h' hfin)

/-- Witness for C6: finalizing a fresh hasher, then calling each operation
again on the consumed instance. -/
theorem claim_C6_finalize_is_one_time_witness :
    digest (fun _ => ([] : Bytes)) init =
      Except.ok ([], ⟨none, some [], 0⟩) ∧
    update (fun _ => ([] : Bytes)) ⟨none, some [], 0⟩ (PyInput.bytes [1]) =
      Except.error HasherError.alreadyFinalized ∧
    digest (fun _ => ([] : Bytes)) ⟨none, some [], 0⟩ =
      Except.error HasherError.alreadyFinalized ∧
    hexdigest (fun _ => ([] : Bytes)) ⟨none, some [], 0⟩ =
      Except.error HasherError.alreadyFinalized :=
  ⟨rfl,
    ((claim_C6_finalize_is_one_time (fun _ => ([] : Bytes)) init).1 []
      ⟨none, some [], 0⟩ rfl).1 (PyInput.bytes [1]),
    ((claim_C6_finalize_is_one_time (fun _ => ([] : Bytes)) init).1 []
      ⟨none, some [], 0⟩ rfl).2.1,
    ((claim_C6_finalize_is_one_time (fun _ => ([] : Bytes)) init).1 []
      ⟨none, some [], 0⟩ rfl).2.2⟩

/-- C7: `copy` on an active hasher duplicates the full internal state (both
accumulators and the position counter) as an independent, still-active
instance: the copy equals the original state, it is not finalized, and any
further identical input fed to the copy finalizes to the same digest as the
hasher that never forked. -/
theorem claim_C7_copy_independent (h : DropboxContentHasher)
    (ho : h.overall_hasher.isSome = true)
    (hb : h.block_hasher.isSome = true) :
    copy h = Except.ok h ∧
    ∀ c, copy h = Except.ok c →
      c.overall_hasher.isSome = true ∧
      ∀ (sha : Bytes → Bytes) (chunks : List Bytes),
        (runUpdates sha c chunks).bind (digest sha) =
          (runUpdates sha h chunks).bind (digest sha) := by
  obtain ⟨oh, bh, bp⟩ := h
  cases oh with
  | none => simp at ho
  | some o =>
    cases bh with
    | none => simp at hb
    | some b =>
      refine ⟨rfl, fun c hc => ?_⟩
      have hceq : DropboxContentHasher.mk (some o) (some b) bp = c := by
        simpa [copy] using hc
      subst hceq
      exact ⟨rfl, fun sha chunks => rfl⟩

/-- Witness for C7: copying a fresh hasher. -/
theorem claim_C7_copy_independent_witness :
    (init.overall_hasher.isSome = true) ∧
    (init.block_hasher.isSome = true) ∧
    (copy init = Except.ok init ∧
      ∀ c, copy init = Except.ok c →
        c.overall_hasher.isSome = true ∧
        ∀ (sha : Bytes → Bytes) (chunks : List Bytes),
          (runUpdates sha c chunks).bind (digest sha) =
            (runUpdates sha init chunks).bind (digest sha)) :=
  ⟨rfl, rfl, claim_C7_copy_independent init rfl rfl⟩

/-- The chunk splitter does not depend on the fuel, as long as it covers the
length. -/
theorem chunksOfAux_fuel (k : Nat) (hk : 0 < k) :
    ∀ (fuel₁ fuel₂ : Nat) (l : Bytes), l.length ≤ fuel₁ → l.length ≤ fuel₂ →
      chunksOfAux k fuel₁ l = chunksOfAux k fuel₂ l := by
  intro fuel₁
  induction fuel₁ with
  | zero =>
    intro fuel₂ l h1 h2
    have hnil : l = [] := List.length_eq_zero.mp (Nat.le_zero.mp h1)
    subst hnil
    cases fuel₂ <;> simp [chunksOfAux]
  | succ f ih =>
    intro fuel₂ l h1 h2
    cases l with
    | nil => cases fuel₂ <;> simp [chunksOfAux]
    | cons x xs =>
      cases fuel₂ with
      | zero => simp only [List.length_cons] at h2; omega
      | succ f₂ =>
        simp only [chunksOfAux]
        congr 1
        apply ih
        · simp only [List.length_drop, List.length_cons] at *; omega
        · simp only [List.length_drop, List.length_cons] at *; omega

/-- Unfolding the chunk splitter on a nonempty byte string. -/
theorem chunksOf_cons (k : Nat) (hk : 0 < k) (x : Nat) (xs : Bytes) :
    chunksOf k (x :: xs) =
      (x :: xs).take k :: chunksOf k ((x :: xs).drop k) := by
  unfold chunksOf
  simp only [List.length_cons, chunksOfAux]
  congr 1
  apply chunksOfAux_fuel k hk
  · simp only [List.length_drop, List.length_cons]; omega
  · exact Nat.le_refl _

/-- For a byte string of length exactly `k * BLOCK_SIZE`, the `BLOCK_SIZE`
chunks are `k` full blocks that concatenate back to the input. -/
theorem chunksOf_exact :
    ∀ (k : Nat) (data : Bytes), data.length = k * BLOCK_SIZE →
      (∀ B ∈ chunksOf BLOCK_SIZE data, B.length = BLOCK_SIZE) ∧
      (chunksOf BLOCK_SIZE data).flatten = data ∧
      (chunksOf BLOCK_SIZE data).length = k := by
  intro k
  induction k with
  | zero =>
    intro data h
    have hnil : data = [] := List.length_eq_zero.mp (by simpa using h)
    subst hnil
    simp [chunksOf, chunksOfAux]
  | succ k ih =>
    intro data h
    have hBS := block_size_pos
    rw [Nat.succ_mul] at h
    have hne : data ≠ [] := by
      intro he; subst he
      simp only [List.length_nil] at h
      omega
    obtain ⟨x, xs, rfl⟩ := List.exists_cons_of_ne_nil hne
    rw [chunksOf_cons BLOCK_SIZE hBS]
    have htake : ((x :: xs).take BLOCK_SIZE).length = BLOCK_SIZE := by
      rw [List.length_take]; omega
    have hdrop : ((x :: xs).drop BLOCK_SIZE).length = k * BLOCK_SIZE := by
      rw [List.length_drop]; omega
    obtain ⟨hb, hf, hl⟩ := ih _ hdrop
    refine ⟨?_, ?_, ?_⟩
    · intro B hB
      rcases List.mem_cons.mp hB with rfl | hB'
      · exact htake
      · exact hb B hB'
    · rw [List.flatten_cons, hf, List.take_append_drop]
    · simp [hl]

/-- Feeding one full block starting at a full block folds the pending block
and ends again at a full block. -/
theorem feed_full_block (sha : Bytes → Bytes) (o b C : Bytes)
    (hC : C.length = BLOCK_SIZE) :
    feed sha (o, b, BLOCK_SIZE) C = (o ++ sha b, C, BLOCK_SIZE) := by
  have hBS := block_size_pos
  have hne : C ≠ [] := by
    intro he; subst he; simp only [List.length_nil] at hC; omega
  rw [feed_full_start sha o b C hne]
  rw [feed_no_fold sha C (o ++ sha b) [] 0 (by omega)]
  simp [hC]

/-- Feeding a concatenation of full blocks starting at a full block. -/
theorem feed_blocks_concat (sha : Bytes → Bytes) :
    ∀ (Bs : List Bytes) (L o b : Bytes),
      (∀ B ∈ Bs, B.length = BLOCK_SIZE) → L.length = BLOCK_SIZE →
      feed sha (o, b, BLOCK_SIZE) (Bs ++ [L]).flatten =
        (o ++ sha b ++ (Bs.map sha).flatten, L, BLOCK_SIZE) := by
  intro Bs
  induction Bs with
  | nil =>
    intro L o b _ hL
    simp only [List.nil_append, List.flatten, List.append_nil]
    rw [feed_full_block sha o b L hL]
  | cons C Bs ih =>
    intro L o b hB hL
    have hC : C.length = BLOCK_SIZE := hB C (List.mem_cons_self _ _)
    simp only [List.cons_append, List.flatten_cons]
    rw [feed_append]
    rw [feed_full_block sha o b C hC]
    rw [ih L (o ++ sha b) C (fun B hB' => hB B (List.mem_cons_of_mem _ hB')) hL]
    simp [List.append_assoc]

/-- Feeding exactly `Bs ++ [L]` full blocks from a fresh hasher: the overall
accumulator holds the digests of all but the last block, and the last block
sits complete in the block accumulator with position `BLOCK_SIZE`. -/
theorem feed_init_blocks (sha : Bytes → Bytes) (Bs : List Bytes) (L : Bytes)
    (hB : ∀ B ∈ Bs, B.length = BLOCK_SIZE) (hL : L.length = BLOCK_SIZE) :
    feed sha ([], [], 0) (Bs ++ [L]).flatten =
      ((Bs.map sha).flatten, L, BLOCK_SIZE) := by
  cases Bs with
  | nil =>
    simp only [List.nil_append, List.flatten, List.append_nil, List.map_nil]
    rw [feed_no_fold sha L [] [] 0 (by omega)]
    simp [hL]
  | cons C Bs' =>
    have hC : C.length = BLOCK_SIZE := hB C (List.mem_cons_self _ _)
    simp only [List.cons_append, List.flatten_cons]
    rw [feed_append]
    rw [feed_no_fold sha C [] [] 0 (by omega)]
    simp only [List.nil_append, Nat.zero_add]
    rw [hC]
    rw [feed_blocks_concat sha Bs' L [] C
      (fun B hB' => hB B (List.mem_cons_of_mem _ hB')) hL]
    simp

/-- Finalizing an active state whose block position is positive folds the
pending block once into the overall stream. -/
theorem digest_block_pos_pos (sha : Bytes → Bytes) (o L : Bytes) (p : Nat)
    (hp : 0 < p) :
    digest sha (mkActive (o, L, p)) =
      Except.ok (sha (o ++ sha L), ⟨none, none, p⟩) := by
  simp [digest, _finish, mkActive, Except.map, hp]

/-- C5: for a byte sequence whose length is an exact positive multiple of
`BLOCK_SIZE`, the finalized digest is the two-level hash with block
boundaries aligned exactly to those multiples — the final fold happens
exactly once for the (full) last block and no spurious empty block is
folded. -/
theorem claim_C5_exact_multiple (sha : Bytes → Bytes) (data : Bytes) (k : Nat)
    (hk : 0 < k) (hlen : data.length = k * BLOCK_SIZE) :
    (update sha init (PyInput.bytes data)).bind (digest sha) =
      Except.ok (specAlignedContentHash sha data, ⟨none, none, BLOCK_SIZE⟩) := by
  obtain ⟨hB, hflat, hlenc⟩ := chunksOf_exact k data hlen
  have hupdate : update sha init (PyInput.bytes data) =
      Except.ok (mkActive (feed sha ([], [], 0) data)) :=
    update_mkActive sha ([], [], 0) data (Nat.zero_le _)
  have hne : chunksOf BLOCK_SIZE data ≠ [] := by
    intro he; rw [he] at hlenc; simp only [List.length_nil] at hlenc; omega
  obtain ⟨Bs, L, hBL⟩ := (List.eq_nil_or_concat _).resolve_left hne
  rw [List.concat_eq_append] at hBL
  have hdata : data = (Bs ++ [L]).flatten := by rw [← hBL, hflat]
  have hBmem : ∀ B ∈ Bs, B.length = BLOCK_SIZE := fun B hB' =>
    hB B (by rw [hBL]; exact List.mem_append_left _ hB')
  have hLlen : L.length = BLOCK_SIZE :=
    hB L (by rw [hBL]; exact List.mem_append_right _ (List.mem_singleton.mpr rfl))
  rw [hupdate]
  show digest sha (mkActive (feed sha ([], [], 0) data)) = _
  conv_lhs => rw [hdata]
  rw [feed_init_blocks sha Bs L hBmem hLlen]
  rw [digest_block_pos_pos sha ((Bs.map sha).flatten) L BLOCK_SIZE block_size_pos]
  unfold specAlignedContentHash
  rw [hBL]
  simp [List.map_append, List.flatten_append]

/-- Witness for C5 at the concrete input of one full zero block. -/
theorem claim_C5_exact_multiple_witness :
    0 < 1 ∧ (List.replicate BLOCK_SIZE 0).length = 1 * BLOCK_SIZE ∧
    (update (fun _ => ([] : Bytes)) init
        (PyInput.bytes (List.replicate BLOCK_SIZE 0))).bind
        (digest (fun _ => ([] : Bytes))) =
      Except.ok
        (specAlignedContentHash (fun _ => ([] : Bytes))
          (List.replicate BLOCK_SIZE 0), ⟨none, none, BLOCK_SIZE⟩) :=
  ⟨Nat.one_pos, by simp,
    claim_C5_exact_multiple (fun _ => ([] : Bytes))
      (List.replicate BLOCK_SIZE 0) 1 Nat.one_pos (by simp)⟩

theorem locallySatisfied_none (sha : Bytes → Bytes) (fs : FS)
    (f : FileMetadata) (h : fs f.name = none) :
    locallySatisfied sha fs f = false := by
  simp [locallySatisfied, h]

theorem locallySatisfied_some (sha : Bytes → Bytes) (fs : FS)
    (f : FileMetadata) (content : Bytes) (h : fs f.name = some content) :
    locallySatisfied sha fs f =
      ((content.length == f.size) && check_file_hash sha content f.content_hash) := by
  simp [locallySatisfied, h]

theorem filter_step_keep (sha : Bytes → Bytes) (fs : FS) (f : FileMetadata)
    (rest : List RemoteEntry) (acc : List FileMetadata)
    (hsat : locallySatisfied sha fs f = false) :
    acc ++ ((RemoteEntry.fileEntry f :: rest).filterMap entryFile).filter
        (fun g => !locallySatisfied sha fs g) =
      (acc ++ [f]) ++ (rest.filterMap entryFile).filter
        (fun g => !locallySatisfied sha fs g) := by
  simp [entryFile, hsat]

theorem filter_step_skip (sha : Bytes → Bytes) (fs : FS) (f : FileMetadata)
    (rest : List RemoteEntry) (acc : List FileMetadata)
    (hsat : locallySatisfied sha fs f = true) :
    acc ++ ((RemoteEntry.fileEntry f :: rest).filterMap entryFile).filter
        (fun g => !locallySatisfied sha fs g) =
      acc ++ (rest.filterMap entryFile).filter
        (fun g => !locallySatisfied sha fs g) := by
  simp [entryFile, hsat]

/-- A page that lists successfully contributes exactly its file entries that
are not locally satisfied, in order, to the accumulator. -/
theorem fetchPage_ok (sha : Bytes → Bytes) (fs : FS) :
    ∀ (entries : List RemoteEntry) (acc res : List FileMetadata),
      fetchPage sha fs entries acc = Except.ok res →
      res = acc ++ (entries.filterMap entryFile).filter
        (fun f => !locallySatisfied sha fs f) := by
  intro entries
  induction entries with
  | nil =>
    intro acc res h
    simp only [fetchPage, Except.ok.injEq] at h
    subst h
    simp
  | cons e rest ih =>
    intro acc res h
    cases e with
    | fileEntry f =>
      simp only [fetchPage] at h
      cases hfs : fs f.name with
      | none =>
        simp only [hfs] at h
        rw [ih (acc ++ [f]) res h,
          filter_step_keep sha fs f rest acc (locallySatisfied_none sha fs f hfs)]
      | some content =>
        simp only [hfs] at h
        by_cases hsize : content.length = f.size
        · rw [if_pos hsize] at h
          by_cases hhash : check_file_hash sha content f.content_hash = true
          · rw [if_pos hhash] at h
            rw [ih acc res h, filter_step_skip sha fs f rest acc
              (by rw [locallySatisfied_some sha fs f content hfs, hsize, hhash]
                  simp)]
          · rw [if_neg hhash] at h
            rw [ih (acc ++ [f]) res h, filter_step_keep sha fs f rest acc
              (by rw [locallySatisfied_some sha fs f content hfs,
                    Bool.eq_false_iff.mpr hhash]
                  simp)]
        · rw [if_neg hsize] at h
          rw [ih (acc ++ [f]) res h, filter_step_keep sha fs f rest acc
            (by rw [locallySatisfied_some sha fs f content hfs]
                simp [hsize])]
    | folderEntry n => simp [fetchPage] at h
    | otherEntry => simp [fetchPage] at h

/-- The pagination loop accumulates, over all pages, exactly the file entries
that are not locally satisfied. -/
theorem fetchPages_ok (sha : Bytes → Bytes) (fs : FS) :
    ∀ (pages : List (List RemoteEntry)) (acc res : List FileMetadata),
      fetchPages sha fs pages acc = Except.ok res →
      res = acc ++ (pages.flatten.filterMap entryFile).filter
        (fun f => !locallySatisfied sha fs f) := by
  intro pages
  induction pages with
  | nil =>
    intro acc res h
    simp only [fetchPages, Except.ok.injEq] at h
    subst h
    simp
  | cons p ps ih =>
    intro acc res h
    simp only [fetchPages] at h
    cases hp : fetchPage sha fs p acc with
    | error e => simp only [hp] at h; exact Except.noConfusion h
    | ok acc' =>
      simp only [hp] at h
      rw [ih acc' res h, fetchPage_ok sha fs p acc acc' hp]
      simp [List.filterMap_append, List.filter_append, List.append_assoc]

/-- C2: a successful listing returns as the download plan exactly the file
entries of the listing, in order, for which no local file with matching name,
size and content hash exists; every other file entry is included. -/
theorem claim_C2_plan_excludes_satisfied (sha : Bytes → Bytes) (fs : FS)
    (pages : List (List RemoteEntry)) (plan : List FileMetadata)
    (h : fetch_entries sha fs pages = Except.ok plan) :
    plan = (pages.flatten.filterMap entryFile).filter
      (fun f => !locallySatisfied sha fs f) := by
  simpa using fetchPages_ok sha fs pages [] plan h

/-- Witness for C2: the file `a` (size and hash matching the local file) is
skipped, the absent file `b` is planned. -/
theorem claim_C2_plan_excludes_satisfied_witness :
    fetch_entries (fun _ => ([] : Bytes))
        (fun n => if n = "a" then some [5, 6] else none)
        [[RemoteEntry.fileEntry ⟨"a", 2, ""⟩, RemoteEntry.fileEntry ⟨"b", 1, "zz"⟩]] =
      Except.ok [⟨"b", 1, "zz"⟩] ∧
    ([⟨"b", 1, "zz"⟩] : List FileMetadata) =
      (([[RemoteEntry.fileEntry ⟨"a", 2, ""⟩,
          RemoteEntry.fileEntry ⟨"b", 1, "zz"⟩]] :
            List (List RemoteEntry)).flatten.filterMap entryFile).filter
        (fun f => !locallySatisfied (fun _ => ([] : Bytes))
          (fun n => if n = "a" then some [5, 6] else none) f) :=
  ⟨rfl, claim_C2_plan_excludes_satisfied (fun _ => ([] : Bytes))
    (fun n => if n = "a" then some [5, 6] else none)
    [[RemoteEntry.fileEntry ⟨"a", 2, ""⟩, RemoteEntry.fileEntry ⟨"b", 1, "zz"⟩]]
    [⟨"b", 1, "zz"⟩] rfl⟩

theorem fetchPage_cons_file_none (sha : Bytes → Bytes) (fs : FS)
    (f : FileMetadata) (rest : List RemoteEntry) (acc : List FileMetadata)
    (hfs : fs f.name = none) :
    fetchPage sha fs (RemoteEntry.fileEntry f :: rest) acc =
      fetchPage sha fs rest (acc ++ [f]) := by
  simp only [fetchPage, hfs]

theorem fetchPage_cons_file_some (sha : Bytes → Bytes) (fs : FS)
    (f : FileMetadata) (rest : List RemoteEntry) (acc : List FileMetadata)
    (content : Bytes) (hfs : fs f.name = some content) :
    fetchPage sha fs (RemoteEntry.fileEntry f :: rest) acc =
      if content.length = f.size then
        (if check_file_hash sha content f.content_hash then
          fetchPage sha fs rest acc
        else fetchPage sha fs rest (acc ++ [f]))
      else fetchPage sha fs rest (acc ++ [f]) := by
  simp only [fetchPage, hfs]

/-- A page containing only file entries always lists successfully. -/
theorem fetchPage_all_files (sha : Bytes → Bytes) (fs : FS) :
    ∀ (entries : List RemoteEntry) (acc : List FileMetadata),
      (∀ e ∈ entries, RemoteEntry.isFileEntry e = true) →
      ∃ res, fetchPage sha fs entries acc = Except.ok res := by
  intro entries
  induction entries with
  | nil => intro acc _; exact ⟨acc, rfl⟩
  | cons e rest ih =>
    intro acc hall
    have hrest : ∀ e ∈ rest, RemoteEntry.isFileEntry e = true := fun e he =>
      hall e (List.mem_cons_of_mem _ he)
    cases e with
    | fileEntry f =>
      cases hfs : fs f.name with
      | none => rw [fetchPage_cons_file_none sha fs f rest acc hfs]
                exact ih (acc ++ [f]) hrest
      | some content =>
        rw [fetchPage_cons_file_some sha fs f rest acc content hfs]
        by_cases hsize : content.length = f.size
        · rw [if_pos hsize]
          by_cases hhash : check_file_hash sha content f.content_hash = true
          · rw [if_pos hhash]; exact ih acc hrest
          · rw [if_neg hhash]; exact ih (acc ++ [f]) hrest
        · rw [if_neg hsize]; exact ih (acc ++ [f]) hrest
    | folderEntry n =>
      have := hall _ (List.mem_cons_self _ _)
      simp [RemoteEntry.isFileEntry] at this
    | otherEntry =>
      have := hall _ (List.mem_cons_self _ _)
      simp [RemoteEntry.isFileEntry] at this

/-- A page containing a folder entry (and no unknown-type entry) fails with
the unsupported-operation error. -/
theorem fetchPage_folder_error (sha : Bytes → Bytes) (fs : FS) :
    ∀ (entries : List RemoteEntry) (acc : List FileMetadata),
      (∀ e ∈ entries, RemoteEntry.isOtherEntry e = false) →
      (∃ e ∈ entries, RemoteEntry.isFolderEntry e = true) →
      fetchPage sha fs entries acc = Except.error FetchError.notImplementedError := by
  intro entries
  induction entries with
  | nil => intro acc _ hex; simp at hex
  | cons e rest ih =>
    intro acc hother hex
    have hother' : ∀ e ∈ rest, RemoteEntry.isOtherEntry e = false := fun e he =>
      hother e (List.mem_cons_of_mem _ he)
    cases e with
    | folderEntry n => rfl
    | otherEntry =>
      have := hother _ (List.mem_cons_self _ _)
      simp [RemoteEntry.isOtherEntry] at this
    | fileEntry f =>
      have hex' : ∃ e ∈ rest, RemoteEntry.isFolderEntry e = true := by
        obtain ⟨e', he', hf'⟩ := hex
        rcases List.mem_cons.mp he' with rfl | hmem
        · simp [RemoteEntry.isFolderEntry] at hf'
        · exact ⟨e', hmem, hf'⟩
      cases hfs : fs f.name with
      | none => rw [fetchPage_cons_file_none sha fs f rest acc hfs]
                exact ih (acc ++ [f]) hother' hex'
      | some content =>
        rw [fetchPage_cons_file_some sha fs f rest acc content hfs]
        by_cases hsize : content.length = f.size
        · rw [if_pos hsize]
          by_cases hhash : check_file_hash sha content f.content_hash = true
          · rw [if_pos hhash]; exact ih acc hother' hex'
          · rw [if_neg hhash]; exact ih (acc ++ [f]) hother' hex'
        · rw [if_neg hsize]; exact ih (acc ++ [f]) hother' hex'

/-- An entry that is neither a folder nor of unknown type is a file entry. -/
theorem file_of_not_folder_other (e : RemoteEntry)
    (hother : RemoteEntry.isOtherEntry e = false)
    (hfolder : RemoteEntry.isFolderEntry e = false) :
    RemoteEntry.isFileEntry e = true := by
  cases e <;> simp_all [RemoteEntry.isFileEntry, RemoteEntry.isFolderEntry,
    RemoteEntry.isOtherEntry]

/-- The pagination loop fails with the unsupported-operation error as soon
as any page contains a folder entry, when all entries are of the two known
kinds. -/
theorem fetchPages_folder_error (sha : Bytes → Bytes) (fs : FS) :
    ∀ (pages : List (List RemoteEntry)) (acc : List FileMetadata),
      (∀ e ∈ pages.flatten, RemoteEntry.isOtherEntry e = false) →
      (∃ e ∈ pages.flatten, RemoteEntry.isFolderEntry e = true) →
      fetchPages sha fs pages acc = Except.error FetchError.notImplementedError := by
  intro pages
  induction pages with
  | nil => intro acc _ hex; simp at hex
  | cons p ps ih =>
    intro acc hother hex
    have hotherp : ∀ e ∈ p, RemoteEntry.isOtherEntry e = false := by
      intro e he
      apply hother e
      rw [List.flatten_cons]
      exact List.mem_append_left _ he
    have hotherps : ∀ e ∈ ps.flatten, RemoteEntry.isOtherEntry e = false := by
      intro e he
      apply hother e
      rw [List.flatten_cons]
      exact List.mem_append_right _ he
    by_cases hp : ∃ e ∈ p, RemoteEntry.isFolderEntry e = true
    · have herr := fetchPage_folder_error sha fs p acc hotherp hp
      simp only [fetchPages, herr]
    · have hallp : ∀ e ∈ p, RemoteEntry.isFileEntry e = true := by
        intro e he
        refine file_of_not_folder_other e (hotherp e he) ?_
        by_contra hc
        refine hp ⟨e, he, ?_⟩
        revert hc
        cases RemoteEntry.isFolderEntry e <;> simp
      obtain ⟨acc', hacc'⟩ := fetchPage_all_files sha fs p acc hallp
      simp only [fetchPages, hacc']
      apply ih acc' hotherps
      obtain ⟨e, he, hf⟩ := hex
      rw [List.flatten_cons] at he
      rcases List.mem_append.mp he with h1 | h2
      · exact absurd ⟨e, h1, hf⟩ hp
      · exact ⟨e, h2, hf⟩

/-- C8: if any page of the remote listing (whose entries are of the two
kinds of the data model, file or folder) contains a folder entry, the whole
listing phase fails with the unsupported-operation error and no download
plan is returned. -/
theorem claim_C8_folder_aborts_listing (sha : Bytes → Bytes) (fs : FS)
    (pages : List (List RemoteEntry))
    (hkinds : ∀ e ∈ pages.flatten, RemoteEntry.isOtherEntry e = false)
    (hfolder : ∃ e ∈ pages.flatten, RemoteEntry.isFolderEntry e = true) :
    fetch_entries sha fs pages = Except.error FetchError.notImplementedError :=
  fetchPages_folder_error sha fs pages [] hkinds hfolder

/-- Witness for C8: a listing of one page holding one file and one folder. -/
theorem claim_C8_folder_aborts_listing_witness :
    (∀ e ∈ ([[RemoteEntry.fileEntry ⟨"x", 0, ""⟩, RemoteEntry.folderEntry "d"]] :
        List (List RemoteEntry)).flatten, RemoteEntry.isOtherEntry e = false) ∧
    (∃ e ∈ ([[RemoteEntry.fileEntry ⟨"x", 0, ""⟩, RemoteEntry.folderEntry "d"]] :
        List (List RemoteEntry)).flatten, RemoteEntry.isFolderEntry e = true) ∧
    fetch_entries (fun _ => ([] : Bytes)) (fun _ => none)
        [[RemoteEntry.fileEntry ⟨"x", 0, ""⟩, RemoteEntry.folderEntry "d"]] =
      Except.error FetchError.notImplementedError :=
  ⟨by decide, by decide,
    claim_C8_folder_aborts_listing (fun _ => ([] : Bytes)) (fun _ => none)
      [[RemoteEntry.fileEntry ⟨"x", 0, ""⟩, RemoteEntry.folderEntry "d"]]
      (by decide) (by decide)⟩

/-- With no iterations left (`range(retry)` exhausted or empty), the loop
leaves the filesystem untouched and emits nothing. -/
theorem downloadAll_no_retries (env : DlEnv) (retry : Int)
    (hz : retry.toNat = 0) :
    ∀ (es : List FileMetadata) (i0 : Nat) (fs : FS),
      downloadAll env retry es i0 fs = (fs, []) := by
  intro es
  induction es with
  | nil => intro i0 fs; rfl
  | cons e rest ih =>
    intro i0 fs
    simp only [downloadAll, hz, downloadLoop]
    rw [ih (i0 + 1) fs]
    rfl

/-- C10: when the retry parameter is zero or negative, `download_entries`
performs no fetch attempt for any entry, reports neither success nor failure
for any entry, leaves the filesystem untouched and returns normally with
only the final completion report. -/
theorem claim_C10_nonpositive_retry (env : DlEnv)
    (entries : List FileMetadata) (retry : Int) (fs : FS) (h : retry ≤ 0) :
    download_entries env entries retry fs = (fs, [Event.downloadCompleted]) := by
  have hz : retry.toNat = 0 := Int.toNat_of_nonpos h
  simp only [download_entries]
  rw [downloadAll_no_retries env retry hz entries 0 fs]
  rfl

/-- Witness for C10 at `retry = -1`. -/
theorem claim_C10_nonpositive_retry_witness :
    ((-1 : Int) ≤ 0) ∧
    download_entries
        ⟨fun _ => ([] : Bytes), fun _ _ => FetchOutcome.transportError,
          fun _ _ => false⟩
        [⟨"x", 0, ""⟩] (-1) (fun _ => none) =
      ((fun _ => none : FS), [Event.downloadCompleted]) :=
  ⟨by decide,
    claim_C10_nonpositive_retry
      ⟨fun _ => ([] : Bytes), fun _ _ => FetchOutcome.transportError,
        fun _ _ => false⟩
      [⟨"x", 0, ""⟩] (-1) (fun _ => none) (by decide)⟩

theorem downloadLoop_succ_transport (env : DlEnv) (entry : FileMetadata)
    (i : Nat) (retry : Int) (k r : Nat) (fs : FS)
    (hout : env.fetchOutcome i r = FetchOutcome.transportError) :
    downloadLoop env entry i retry (k + 1) r fs =
      if (r : Int) < retry - 1 then
        ((downloadLoop env entry i retry k (r + 1) fs).1,
          Event.fetchAttempt i r ::
            Event.refreshInvoked i r (env.refreshOk i r) ::
              (downloadLoop env entry i retry k (r + 1) fs).2)
      else (fs, [Event.fetchAttempt i r, Event.failedSkipping i]) := by
  simp only [downloadLoop, hout]

theorem downloadLoop_succ_success (env : DlEnv) (entry : FileMetadata)
    (i : Nat) (retry : Int) (k r : Nat) (fs : FS) (content : Bytes)
    (hout : env.fetchOutcome i r = FetchOutcome.fetched content)
    (hcheck : check_file_hash env.sha content entry.content_hash = true) :
    downloadLoop env entry i retry (k + 1) r fs =
      ((fun n => if n = entry.name then some content else fs n : FS),
        [Event.fetchAttempt i r]) := by
  simp only [downloadLoop, hout, hcheck, if_true]

theorem downloadLoop_succ_hashfail (env : DlEnv) (entry : FileMetadata)
    (i : Nat) (retry : Int) (k r : Nat) (fs : FS) (content : Bytes)
    (hout : env.fetchOutcome i r = FetchOutcome.fetched content)
    (hcheck : check_file_hash env.sha content entry.content_hash = false) :
    downloadLoop env entry i retry (k + 1) r fs =
      if (r : Int) < retry - 1 then
        ((downloadLoop env entry i retry k (r + 1)
            (fun n => if n = entry.name then none
              else if n = entry.name then some content else fs n)).1,
          Event.fetchAttempt i r ::
            Event.refreshInvoked i r (env.refreshOk i r) ::
              (downloadLoop env entry i retry k (r + 1)
                (fun n => if n = entry.name then none
                  else if n = entry.name then some content else fs n)).2)
      else
        ((fun n => if n = entry.name then none
            else if n = entry.name then some content else fs n : FS),
          [Event.fetchAttempt i r, Event.failedSkipping i]) := by
  simp only [downloadLoop, hout, hcheck, Bool.false_eq_true, if_false]

/-- If attempt `a` of entry `i` fails and retries remain, the loop invokes
the token-refresh capability for that attempt, whatever the failure class. -/
theorem downloadLoop_refresh_mem (env : DlEnv) (entry : FileMetadata)
    (i : Nat) (retry : Int) (a : Nat) :
    ∀ (k r : Nat) (fs : FS),
      (∀ a', r ≤ a' → a' ≤ a → attemptFailsB env entry i a' = true) →
      r ≤ a → (a : Int) < retry - 1 → a < r + k →
      Event.refreshInvoked i a (env.refreshOk i a) ∈
        (downloadLoop env entry i retry k r fs).2 := by
  intro k
  induction k with
  | zero => intro r fs _ hra _ hak; omega
  | succ k ih =>
    intro r fs hfail hra hretry hak
    have hfailr : attemptFailsB env entry i r = true := hfail r (Nat.le_refl r) hra
    have hcond : (r : Int) < retry - 1 := by
      have hcast : (r : Int) ≤ (a : Int) := by exact_mod_cast hra
      omega
    have hmem : ∀ fsx : FS,
        Event.refreshInvoked i a (env.refreshOk i a) ∈
          Event.fetchAttempt i r ::
            Event.refreshInvoked i r (env.refreshOk i r) ::
              (downloadLoop env entry i retry k (r + 1) fsx).2 := by
      intro fsx
      rcases Nat.eq_or_lt_of_le hra with rfl | hlt
      · exact List.mem_cons_of_mem _ (List.mem_cons_self _ _)
      · exact List.mem_cons_of_mem _ (List.mem_cons_of_mem _
          (ih (r + 1) fsx (fun a' h1 h2 => hfail a' (by omega) h2) (by omega)
            hretry (by omega)))
    cases hout : env.fetchOutcome i r with
    | transportError =>
      rw [downloadLoop_succ_transport env entry i retry k r fs hout,
        if_pos hcond]
      exact hmem fs
    | fetched content =>
      have hcheck : check_file_hash env.sha content entry.content_hash = false := by
        simp only [attemptFailsB, hout] at hfailr
        cases hcb : check_file_hash env.sha content entry.content_hash
        · rfl
        · rw [hcb] at hfailr; simp at hfailr
      rw [downloadLoop_succ_hashfail env entry i retry k r fs content hout hcheck,
        if_pos hcond]
      exact hmem _

/-- Lifting `downloadLoop_refresh_mem` through the per-entry loop of
`downloadAll`. -/
theorem downloadAll_refresh_mem (env : DlEnv) (retry : Int) (a : Nat) :
    ∀ (es : List FileMetadata) (i0 : Nat) (fs : FS) (j : Nat)
      (hj : j < es.length),
      (∀ a', a' ≤ a → attemptFailsB env (es.get ⟨j, hj⟩) (i0 + j) a' = true) →
      (a : Int) < retry - 1 →
      Event.refreshInvoked (i0 + j) a (env.refreshOk (i0 + j) a) ∈
        (downloadAll env retry es i0 fs).2 := by
  intro es
  induction es with
  | nil => intro i0 fs j hj; simp at hj
  | cons e rest ih =>
    intro i0 fs j hj hfail hretry
    simp only [downloadAll]
    cases j with
    | zero =>
      apply List.mem_append_left
      simp only [Nat.add_zero] at hfail ⊢
      apply downloadLoop_refresh_mem env e i0 retry a retry.toNat 0 fs
        (fun a' _ h2 => hfail a' h2) (Nat.zero_le a) hretry
      omega
    | succ j' =>
      apply List.mem_append_right
      have hj' : j' < rest.length := by simpa using hj
      have hidx : i0 + (j' + 1) = (i0 + 1) + j' := by omega
      rw [hidx]
      have hfail' : ∀ a', a' ≤ a →
          attemptFailsB env (rest.get ⟨j', hj'⟩) ((i0 + 1) + j') a' = true := by
        intro a' h
        have := hfail a' h
        rw [hidx] at this
        exact this
      exact ih (i0 + 1) _ j' hj' hfail' hretry

/-- C3 (amended): whenever an attempt for an entry fails — whatever the
failure class, transport error or hash mismatch — and attempts remain, the
engine invokes the service's refresh-if-expired capability
(`check_and_refresh_access_token`) before retrying; the invocation is not
conditioned on the failure class. -/
theorem claim_C3_refresh_attempted_on_every_failure (env : DlEnv)
    (entries : List FileMetadata) (retry : Int) (fs : FS) (i a : Nat)
    (hi : i < entries.length)
    (hfail : ∀ a', a' ≤ a → attemptFailsB env (entries.get ⟨i, hi⟩) i a' = true)
    (hrem : (a : Int) < retry - 1) :
    Event.refreshInvoked i a (env.refreshOk i a) ∈
      (download_entries env entries retry fs).2 := by
  simp only [download_entries]
  apply List.mem_append_left
  have hfail0 : ∀ a', a' ≤ a →
      attemptFailsB env (entries.get ⟨i, hi⟩) (0 + i) a' = true := by
    simpa using hfail
  have := downloadAll_refresh_mem env retry a entries 0 fs i hi hfail0 hrem
  simpa using this

/-- Counterexample to C3 as stated: in a run where the only failure is a
hash mismatch (the fetch succeeds at transport level and no credential is
involved), the engine still invokes the refresh capability — and here the
refresh actually occurs (`refreshOk` returns `true`) — before retrying,
contradicting that a refresh is attempted only for the credential-expired
failure class. -/
theorem claim_C3_counterexample :
    check_file_hash (fun _ => ([0] : Bytes)) [7] "zz" = false ∧
    (⟨fun _ => ([0] : Bytes), fun _ _ => FetchOutcome.fetched [7],
        fun _ _ => true⟩ : DlEnv).fetchOutcome 0 0 =
      FetchOutcome.fetched [7] ∧
    Event.refreshInvoked 0 0 true ∈
      (download_entries
        ⟨fun _ => ([0] : Bytes), fun _ _ => FetchOutcome.fetched [7],
          fun _ _ => true⟩
        [⟨"f", 1, "zz"⟩] 2 (fun _ => none)).2 := by
  refine ⟨by decide, rfl, by decide⟩

/-- Witness for the amended C3 at the concrete run of the counterexample. -/
theorem claim_C3_refresh_attempted_witness :
    (∀ a', a' ≤ 0 →
      attemptFailsB
        ⟨fun _ => ([0] : Bytes), fun _ _ => FetchOutcome.fetched [7],
          fun _ _ => true⟩
        ⟨"f", 1, "zz"⟩ 0 a' = true) ∧
    ((0 : Int) < 2 - 1) ∧
    Event.refreshInvoked 0 0 true ∈
      (download_entries
        ⟨fun _ => ([0] : Bytes), fun _ _ => FetchOutcome.fetched [7],
          fun _ _ => true⟩
        [⟨"f", 1, "zz"⟩] 2 (fun _ => none)).2 :=
  ⟨by decide, by decide,
    claim_C3_refresh_attempted_on_every_failure
      ⟨fun _ => ([0] : Bytes), fun _ _ => FetchOutcome.fetched [7],
        fun _ _ => true⟩
      [⟨"f", 1, "zz"⟩] 2 (fun _ => none) 0 0 (by decide) (by decide) (by decide)⟩

/-- The per-entry loop writes only at the entry's own name. -/
theorem downloadLoop_other_name (env : DlEnv) (entry : FileMetadata)
    (i : Nat) (retry : Int) :
    ∀ (k r : Nat) (fs : FS) (n : String), n ≠ entry.name →
      (downloadLoop env entry i retry k r fs).1 n = fs n := by
  intro k
  induction k with
  | zero => intro r fs n _; rfl
  | succ k ih =>
    intro r fs n hn
    cases hout : env.fetchOutcome i r with
    | transportError =>
      rw [downloadLoop_succ_transport env entry i retry k r fs hout]
      by_cases hcond : (r : Int) < retry - 1
      · rw [if_pos hcond]; exact ih (r + 1) fs n hn
      · rw [if_neg hcond]
    | fetched content =>
      by_cases hcheck : check_file_hash env.sha content entry.content_hash = true
      · rw [downloadLoop_succ_success env entry i retry k r fs content hout hcheck]
        simp [hn]
      · have hcheck' : check_file_hash env.sha content entry.content_hash = false := by
          cases hcb : check_file_hash env.sha content entry.content_hash
          · rfl
          · exact absurd hcb hcheck
        rw [downloadLoop_succ_hashfail env entry i retry k r fs content hout hcheck']
        by_cases hcond : (r : Int) < retry - 1
        · rw [if_pos hcond]
          rw [ih (r + 1) _ n hn]
          simp [hn]
        · rw [if_neg hcond]
          simp [hn]

/-- If every attempt the loop can make is a transport-successful fetch that
fails hash verification, the loop deletes the file at the entry's name
(also on the last attempt) and reports the failure before giving up. -/
theorem downloadLoop_all_hashfail (env : DlEnv) (entry : FileMetadata)
    (i : Nat) (retry : Int) :
    ∀ (k r : Nat) (fs : FS), 1 ≤ k → r + k = retry.toNat → 1 ≤ retry →
      (∀ a, r ≤ a → a < retry.toNat → attemptHashFails env entry i a = true) →
      (downloadLoop env entry i retry k r fs).1 entry.name = none ∧
      Event.failedSkipping i ∈ (downloadLoop env entry i retry k r fs).2 := by
  intro k
  induction k with
  | zero => intro r fs h1 _ _ _; omega
  | succ k ih =>
    intro r fs _ hsum hr1 hfail
    have hrlt : r < retry.toNat := by omega
    have hhf := hfail r (Nat.le_refl r) hrlt
    cases hout : env.fetchOutcome i r with
    | transportError =>
      simp only [attemptHashFails, hout] at hhf
      exact Bool.noConfusion hhf
    | fetched content =>
      have hcheck : check_file_hash env.sha content entry.content_hash = false := by
        simp only [attemptHashFails, hout] at hhf
        cases hcb : check_file_hash env.sha content entry.content_hash
        · rfl
        · rw [hcb] at hhf; simp at hhf
      rw [downloadLoop_succ_hashfail env entry i retry k r fs content hout hcheck]
      by_cases hcond : (r : Int) < retry - 1
      · rw [if_pos hcond]
        have hk1 : 1 ≤ k := by omega
        obtain ⟨ihfs, ihmem⟩ := ih (r + 1)
          (fun n => if n = entry.name then none
            else if n = entry.name then some content else fs n)
          hk1 (by omega) hr1 (fun a h1 h2 => hfail a (by omega) h2)
        exact ⟨ihfs, List.mem_cons_of_mem _ (List.mem_cons_of_mem _ ihmem)⟩
      · rw [if_neg hcond]
        constructor
        · simp
        · simp

/-- The whole-plan loop leaves untouched every name no remaining entry has. -/
theorem downloadAll_other_name (env : DlEnv) (retry : Int) :
    ∀ (es : List FileMetadata) (i0 : Nat) (fs : FS) (n : String),
      (∀ e ∈ es, e.name ≠ n) →
      (downloadAll env retry es i0 fs).1 n = fs n := by
  intro es
  induction es with
  | nil => intro i0 fs n _; rfl
  | cons e rest ih =>
    intro i0 fs n hne
    simp only [downloadAll]
    rw [ih (i0 + 1) _ n (fun e' he' => hne e' (List.mem_cons_of_mem _ he'))]
    exact downloadLoop_other_name env e i0 retry retry.toNat 0 fs n
      (fun h => hne e (List.mem_cons_self _ _) h.symm)

/-- With at least one iteration, the loop's first event is the start of
attempt `r`. -/
theorem downloadLoop_first_attempt (env : DlEnv) (entry : FileMetadata)
    (i : Nat) (retry : Int) (k r : Nat) (fs : FS) (hk : 1 ≤ k) :
    Event.fetchAttempt i r ∈ (downloadLoop env entry i retry k r fs).2 := by
  cases k with
  | zero => omega
  | succ k =>
    cases hout : env.fetchOutcome i r with
    | transportError =>
      rw [downloadLoop_succ_transport env entry i retry k r fs hout]
      by_cases hcond : (r : Int) < retry - 1
      · rw [if_pos hcond]; exact List.mem_cons_self _ _
      · rw [if_neg hcond]; exact List.mem_cons_self _ _
    | fetched content =>
      by_cases hcheck : check_file_hash env.sha content entry.content_hash = true
      · rw [downloadLoop_succ_success env entry i retry k r fs content hout hcheck]
        exact List.mem_cons_self _ _
      · have hcheck' : check_file_hash env.sha content entry.content_hash = false := by
          cases hcb : check_file_hash env.sha content entry.content_hash
          · rfl
          · exact absurd hcb hcheck
        rw [downloadLoop_succ_hashfail env entry i retry k r fs content hout hcheck']
        by_cases hcond : (r : Int) < retry - 1
        · rw [if_pos hcond]; exact List.mem_cons_self _ _
        · rw [if_neg hcond]; exact List.mem_cons_self _ _

/-- With a positive retry count, every entry of the plan gets its first
fetch attempt recorded. -/
theorem downloadAll_attempt0_mem (env : DlEnv) (retry : Int)
    (h1 : 1 ≤ retry.toNat) :
    ∀ (es : List FileMetadata) (i0 : Nat) (fs : FS) (j : Nat),
      j < es.length →
      Event.fetchAttempt (i0 + j) 0 ∈ (downloadAll env retry es i0 fs).2 := by
  intro es
  induction es with
  | nil => intro i0 fs j hj; simp at hj
  | cons e rest ih =>
    intro i0 fs j hj
    simp only [downloadAll]
    cases j with
    | zero =>
      apply List.mem_append_left
      simp only [Nat.add_zero]
      exact downloadLoop_first_attempt env e i0 retry retry.toNat 0 fs h1
    | succ j' =>
      apply List.mem_append_right
      have hj' : j' < rest.length := by simpa using hj
      have hidx : i0 + (j' + 1) = (i0 + 1) + j' := by omega
      rw [hidx]
      exact ih (i0 + 1) _ j' hj'

/-- Lifting `downloadLoop_all_hashfail` through the whole-plan loop: the
entry's file ends deleted (later entries have other names) and its failure
report appears in the run's events. -/
theorem downloadAll_hashfail (env : DlEnv) (retry : Int) (hr1 : 1 ≤ retry) :
    ∀ (es : List FileMetadata) (i0 : Nat) (fs : FS) (j : Nat)
      (hj : j < es.length),
      (∀ a, a < retry.toNat →
        attemptHashFails env (es.get ⟨j, hj⟩) (i0 + j) a = true) →
      (∀ j' (hj' : j' < es.length), j < j' →
        (es.get ⟨j', hj'⟩).name ≠ (es.get ⟨j, hj⟩).name) →
      (downloadAll env retry es i0 fs).1 (es.get ⟨j, hj⟩).name = none ∧
      Event.failedSkipping (i0 + j) ∈ (downloadAll env retry es i0 fs).2 := by
  intro es
  induction es with
  | nil => intro i0 fs j hj; simp at hj
  | cons e rest ih =>
    intro i0 fs j hj hfail hnames
    simp only [downloadAll]
    cases j with
    | zero =>
      simp only [Nat.add_zero] at hfail ⊢
      have hget : (e :: rest).get ⟨0, hj⟩ = e := rfl
      rw [hget] at hfail ⊢
      have hk1 : 1 ≤ retry.toNat := by omega
      obtain ⟨hfs0, hmem0⟩ := downloadLoop_all_hashfail env e i0 retry
        retry.toNat 0 fs hk1 (by omega) hr1 (fun a _ h2 => hfail a h2)
      constructor
      · rw [downloadAll_other_name env retry rest (i0 + 1) _ e.name ?names]
        · exact hfs0
        case names =>
          intro e' he'
          obtain ⟨⟨j'', hj''⟩, hg⟩ := List.mem_iff_get.mp he'
          rw [← hg]
          have := hnames (j'' + 1) (by simpa using Nat.succ_lt_succ hj'')
            (Nat.succ_pos _)
          exact this
      · exact List.mem_append_left _ hmem0
    | succ j' =>
      have hj' : j' < rest.length := by simpa using hj
      have hidx : i0 + (j' + 1) = (i0 + 1) + j' := by omega
      have hget : (e :: rest).get ⟨j' + 1, hj⟩ = rest.get ⟨j', hj'⟩ := rfl
      rw [hget] at hfail ⊢
      rw [hidx] at hfail ⊢
      have hnames' : ∀ j'' (hj'' : j'' < rest.length), j' < j'' →
          (rest.get ⟨j'', hj''⟩).name ≠ (rest.get ⟨j', hj'⟩).name := by
        intro j'' hj'' hlt
        have := hnames (j'' + 1) (by simpa using Nat.succ_lt_succ hj'')
          (Nat.succ_lt_succ hlt)
        rw [hget] at this
        exact this
      obtain ⟨c1, c2⟩ := ih (i0 + 1)
        ((downloadLoop env e i0 retry retry.toNat 0 fs).1) j' hj' hfail hnames'
      exact ⟨c1, List.mem_append_right _ c2⟩

/-- C9: for an entry of the plan all of whose `retry` attempts fetch but
fail hash verification (no other entry sharing its name), after the run no
file remains at the entry's name — the mismatching file is deleted on every
failed verification including the last — the per-entry failure is reported,
and the run proceeds to every later entry (each gets its first attempt)
without aborting. -/
theorem claim_C9_hash_exhaustion_cleans_up (env : DlEnv)
    (entries : List FileMetadata) (retry : Int) (fs : FS) (i : Nat)
    (hi : i < entries.length) (hr1 : 1 ≤ retry)
    (hfail : ∀ a, a < retry.toNat →
      attemptHashFails env (entries.get ⟨i, hi⟩) i a = true)
    (hnames : ∀ j (hj : j < entries.length), i < j →
      (entries.get ⟨j, hj⟩).name ≠ (entries.get ⟨i, hi⟩).name) :
    (download_entries env entries retry fs).1 (entries.get ⟨i, hi⟩).name = none ∧
    Event.failedSkipping i ∈ (download_entries env entries retry fs).2 ∧
    ∀ j, i < j → ∀ (hj : j < entries.length),
      Event.fetchAttempt j 0 ∈ (download_entries env entries retry fs).2 := by
  have hfail0 : ∀ a, a < retry.toNat →
      attemptHashFails env (entries.get ⟨i, hi⟩) (0 + i) a = true := by
    simpa using hfail
  have hmain := downloadAll_hashfail env retry hr1 entries 0 fs i hi hfail0 hnames
  simp only [download_entries]
  refine ⟨hmain.1, List.mem_append_left _ (by simpa using hmain.2), ?_⟩
  intro j _ hj
  apply List.mem_append_left
  have := downloadAll_attempt0_mem env retry (by omega) entries 0 fs j hj
  simpa using this

/-- Witness for C9: a two-entry plan where every attempt for the first entry
fetches content whose hash mismatches. -/
theorem claim_C9_hash_exhaustion_cleans_up_witness :
    ((1 : Int) ≤ 2) ∧
    (∀ a, a < (2 : Int).toNat →
      attemptHashFails
        ⟨fun _ => ([0] : Bytes), fun _ _ => FetchOutcome.fetched [7],
          fun _ _ => false⟩
        ⟨"aa", 1, "zz"⟩ 0 a = true) ∧
    (download_entries
        ⟨fun _ => ([0] : Bytes), fun _ _ => FetchOutcome.fetched [7],
          fun _ _ => false⟩
        [⟨"aa", 1, "zz"⟩, ⟨"bb", 1, "yy"⟩] 2 (fun _ => none)).1 "aa" = none ∧
    Event.failedSkipping 0 ∈
      (download_entries
        ⟨fun _ => ([0] : Bytes), fun _ _ => FetchOutcome.fetched [7],
          fun _ _ => false⟩
        [⟨"aa", 1, "zz"⟩, ⟨"bb", 1, "yy"⟩] 2 (fun _ => none)).2 ∧
    Event.fetchAttempt 1 0 ∈
      (download_entries
        ⟨fun _ => ([0] : Bytes), fun _ _ => FetchOutcome.fetched [7],
          fun _ _ => false⟩
        [⟨"aa", 1, "zz"⟩, ⟨"bb", 1, "yy"⟩] 2 (fun _ => none)).2 :=
  ⟨by decide, by decide,
    (claim_C9_hash_exhaustion_cleans_up
      ⟨fun _ => ([0] : Bytes), fun _ _ => FetchOutcome.fetched [7],
        fun _ _ => false⟩
      [⟨"aa", 1, "zz"⟩, ⟨"bb", 1, "yy"⟩] 2 (fun _ => none) 0 (by decide)
      (by decide) (by decide) (by decide)).1,
    (claim_C9_hash_exhaustion_cleans_up
      ⟨fun _ => ([0] : Bytes), fun _ _ => FetchOutcome.fetched [7],
        fun _ _ => false⟩
      [⟨"aa", 1, "zz"⟩, ⟨"bb", 1, "yy"⟩] 2 (fun _ => none) 0 (by decide)
      (by decide) (by decide) (by decide)).2.1,
    (claim_C9_hash_exhaustion_cleans_up
      ⟨fun _ => ([0] : Bytes), fun _ _ => FetchOutcome.fetched [7],
        fun _ _ => false⟩
      [⟨"aa", 1, "zz"⟩, ⟨"bb", 1, "yy"⟩] 2 (fun _ => none) 0 (by decide)
      (by decide) (by decide) (by decide)).2.2 1 (by decide) (by decide)⟩

end DropboxDownloader
